import Mathlib

/-!
Verification of the bounded-concurrency bulk-mutation engine of the
karakeep-frontend repository (source function `executeBulkOperation` in
the bulk-operations module).

The JavaScript source is embedded as a small-step state machine over the
closure state of one `executeBulkOperation` call.  In the host runtime the
only suspension point inside a worker loop is `await operation(bookmarkId)`;
every other statement of the loop body runs synchronously and atomically.
The machine below therefore has two kinds of transitions:

* `Directive.run w` — worker `w` executes the synchronous head of its loop:
  it checks the shared queue, exits if the queue is empty, pops the next id
  (`queue.shift()`), exits if the popped id is falsy (`if (!bookmarkId) break`,
  which for a string element means the empty string), and otherwise marks the
  id in progress, emits a progress snapshot and invokes the operation,
  suspending on its promise;
* `Directive.settle w e` — the promise worker `w` is awaiting settles
  (`e = none` for fulfilment, `e = some err` for rejection, which also covers
  a synchronous throw at the call site since both land in the same
  `catch`/`finally` blocks), after which the worker records the outcome,
  removes the id from the in-progress set, emits a progress snapshot and
  returns to the top of its loop.

This transition system allows every interleaving the event loop can produce
(consecutive directives for the same worker recover each maximal synchronous
segment), so invariants proved over all directive lists hold of the real
executions, and properties of all `finished` states cover the value the
promise returned by `executeBulkOperation` resolves with.

The fields `events`, `opCalls` and `dropped` are history variables: `events`
records the snapshots passed to the (optional) `onProgress` callback in
order, `opCalls` counts invocations of `operation`, and `dropped` records
ids discarded by the falsy-check `break` path.  They do not influence the
transition behaviour.

Two models of the spawn loop are used.  `init` seeds a static pool of
`min(concurrency, len(ids))` idle workers — the bound's value on the
untouched queue — which over-approximates the real spawn: the source
re-evaluates `Math.min(concurrency, queue.length)` before each iteration
while each freshly pushed worker has already synchronously claimed an id,
so the loop can stop early.  Since a smaller pool's executions are exactly
the static machine's schedules that never run the missing workers, every
property proved here over all schedules of `init` holds of the real
executions.  The spawned worker count itself is settled against the
faithful dynamic model (`executeBulkSpawn`), which replays the loop,
including each worker's synchronous first segment.
-/

namespace Karakeep

/-- A JavaScript value thrown or rejected by the operation: either an
`Error` object (carrying its `message`) or any other value (carried here
already in its `String(error)` rendering). -/
inductive JsError where
  | errorObj (message : String)
  | nonError (stringified : String)
deriving DecidableEq

/-- Mirrors the catch-clause expression
`error instanceof Error ? error.message : String(error)`. -/
def captureMsg : JsError → String
  | .errorObj m => m
  | .nonError s => s

/-- Mirrors `interface BulkOperationProgress`.  `errors` records the contents
of the `failed` array at the moment of emission (the source passes the live
array by reference). -/
structure BulkOperationProgress where
  total : Nat
  completed : Nat
  failed : Nat
  inProgress : Nat
  errors : List (String × String)
deriving DecidableEq

/-- Control state of one worker of the pool: at the top of its
`while (queue.length > 0)` loop, suspended on `await operation(bookmarkId)`
(remembering which queue entry it claimed, by original position and id),
or exited. -/
inductive WorkerState where
  | looping
  | awaiting (idx : Nat) (bookmarkId : String)
  | done
deriving DecidableEq

/-- The closure state of one `executeBulkOperation` call.  `queue` keeps each
entry together with its original position in `bookmarkIds` so that distinct
occurrences of duplicated ids remain distinguishable.  `failed` entries are
`(bookmarkId, error)` pairs.  `inProgress` models the JS `Set<string>` as a
duplicate-free list.  `events`, `opCalls`, `dropped` are history variables. -/
structure BulkState where
  total : Nat
  queue : List (Nat × String)
  succeeded : List String
  failed : List (String × String)
  inProgress : List String
  workers : List WorkerState
  events : List BulkOperationProgress
  opCalls : Nat
  dropped : List String
deriving DecidableEq

/-- `Set.add`: appends only if absent. -/
def setAdd (s : List String) (x : String) : List String :=
  if x ∈ s then s else s ++ [x]

/-- The id a worker currently holds, if it is awaiting its operation. -/
def workerId : WorkerState → Option String
  | .awaiting _ b => some b
  | _ => none

/-- The original queue position of the entry a worker currently holds. -/
def workerIdx : WorkerState → Option Nat
  | .awaiting i _ => some i
  | _ => none

/-- Ids currently claimed by awaiting workers. -/
def awaitingIds (ws : List WorkerState) : List String :=
  ws.filterMap workerId

/-- Original queue positions currently claimed by awaiting workers. -/
def awaitingIdxs (ws : List WorkerState) : List Nat :=
  ws.filterMap workerIdx

/-- The snapshot built by `updateProgress` in the source. -/
def snap (c : BulkState) : BulkOperationProgress :=
  { total := c.total
    completed := c.succeeded.length
    failed := c.failed.length
    inProgress := c.inProgress.length
    errors := c.failed }

/-- Mirrors `updateProgress()`: emits the current snapshot (recorded in the
`events` history when an `onProgress` callback is supplied). -/
def updateProgress (c : BulkState) : BulkState :=
  { c with events := c.events ++ [snap c] }

/-- One scheduling decision of the event loop. -/
inductive Directive where
  | run (w : Nat)
  | settle (w : Nat) (e : Option JsError)
deriving DecidableEq

/-- Worker `w` executes the synchronous head of its loop (see module
comment): exit on empty queue, `queue.shift()`, `if (!bookmarkId) break`
(for a string array element, falsy means the empty string), else mark
in progress, `updateProgress()`, and invoke the operation. -/
def runStep (c : BulkState) (w : Nat) : BulkState :=
  match c.workers.get? w with
  | some WorkerState.looping =>
    match c.queue with
    | [] => { c with workers := c.workers.set w WorkerState.done }
    | (i, b) :: rest =>
      if b = "" then
        { c with queue := rest
                 workers := c.workers.set w WorkerState.done
                 dropped := c.dropped ++ [b] }
      else
        updateProgress
          { c with queue := rest
                   inProgress := setAdd c.inProgress b
                   workers := c.workers.set w (WorkerState.awaiting i b)
                   opCalls := c.opCalls + 1 }
  | _ => c

/-- The operation worker `w` is awaiting settles: on fulfilment
`succeeded.push(bookmarkId)`, on rejection `failed.push({bookmarkId, error})`
with the captured message; then the `finally` block removes the id from
`inProgress` and calls `updateProgress()`, and the worker loops. -/
def settleStep (c : BulkState) (w : Nat) (e : Option JsError) : BulkState :=
  match c.workers.get? w with
  | some (WorkerState.awaiting _ b) =>
    let c1 :=
      match e with
      | none => { c with succeeded := c.succeeded ++ [b] }
      | some err => { c with failed := c.failed ++ [(b, captureMsg err)] }
    updateProgress
      { c1 with inProgress := c1.inProgress.erase b
                workers := c1.workers.set w WorkerState.looping }
  | _ => c

/-- One transition. -/
def step (c : BulkState) : Directive → BulkState
  | .run w => runStep c w
  | .settle w e => settleStep c w e

/-- Mirrors the destructuring default `const { concurrency = 3 } = options`. -/
def resolveConcurrency (concurrency? : Option Int) : Int :=
  concurrency?.getD 3

/-- The static worker-pool size `min(concurrency, len(ids))` (zero when the
bound is not positive): the value of the loop bound
`Math.min(concurrency, queue.length)` on the untouched queue.  Because the
source re-evaluates that bound while already-spawned workers synchronously
claim ids (see the spawn-phase section below), the real spawn count is at
most this; the static pool is an over-approximation whose runs form a
superset of the real ones, sound for the safety and terminal-partition
properties proved over all schedules.  The faithful spawned count is settled
separately via `executeBulkSpawn`. -/
def numWorkers (bookmarkIds : List String) (concurrency? : Option Int) : Nat :=
  (min (resolveConcurrency concurrency?) (bookmarkIds.length : Int)).toNat

/-- The start state with the static pool: the queue seeded with all ids in
input order (`const queue = [...bookmarkIds]`), everything else empty, and
`min(concurrency, queue.length)` workers at the top of their loops.  This
over-approximates the dynamically spawned pool (`executeBulkSpawn`): every
real execution is a schedule of this machine, with fewer or equal workers
ever active. -/
def init (bookmarkIds : List String) (concurrency? : Option Int) : BulkState :=
  { total := bookmarkIds.length
    queue := bookmarkIds.enum
    succeeded := []
    failed := []
    inProgress := []
    workers := List.replicate (numWorkers bookmarkIds concurrency?) WorkerState.looping
    events := []
    opCalls := 0
    dropped := [] }

/-- The state after the event loop has made the scheduling decisions `ds`. -/
def bulkRun (bookmarkIds : List String) (concurrency? : Option Int)
    (ds : List Directive) : BulkState :=
  ds.foldl step (init bookmarkIds concurrency?)

/-- `Promise.all(workers)` has resolved: every worker exited its loop.
At such a state `executeBulkOperation` resolves. -/
def finished (c : BulkState) : Bool :=
  c.workers.all (· == WorkerState.done)

/-- The value `executeBulkOperation` resolves with at a finished state. -/
def executeBulkOperation (bookmarkIds : List String) (concurrency? : Option Int)
    (ds : List Directive) : List String × List (String × String) :=
  ((bulkRun bookmarkIds concurrency? ds).succeeded,
    (bulkRun bookmarkIds concurrency? ds).failed)

/-- Transition driven by a deterministic operation `op` (the settle outcome
of an id is a function of the id, as for the per-id success/failure
predicates of the specification; `op b = none` means the operation fulfils
for `b`, `op b = some e` that it rejects or throws `e`). -/
def stepOp (op : String → Option JsError) (c : BulkState) : Directive → BulkState
  | .run w => runStep c w
  | .settle w _ =>
    match c.workers.get? w with
    | some (WorkerState.awaiting _ b) => settleStep c w (op b)
    | _ => c

/-- Run with a deterministic operation. -/
def bulkRunOp (op : String → Option JsError) (bookmarkIds : List String)
    (concurrency? : Option Int) (ds : List Directive) : BulkState :=
  ds.foldl (stepOp op) (init bookmarkIds concurrency?)

/-- Ids in the shared queue, in order. -/
def queueIds (c : BulkState) : List String :=
  c.queue.map Prod.snd

/-- Ids recorded in the failed list, in discovery order. -/
def failedIds (c : BulkState) : List String :=
  c.failed.map Prod.fst

/-- Ordering between successive progress snapshots: the completed and failed
counters never decrease. -/
def ProgLE (p q : BulkOperationProgress) : Prop :=
  p.completed ≤ q.completed ∧ p.failed ≤ q.failed

/-- The initial state of the call on ids `["", "x"]` with concurrency 1:
one worker, the blank id at the head of the queue. -/
def blankFirstStart : BulkState :=
  { total := 2
    queue := [(0, ""), (1, "x")]
    succeeded := []
    failed := []
    inProgress := []
    workers := [WorkerState.looping]
    events := []
    opCalls := 0
    dropped := [] }

/-- The state of that call after its only worker popped the blank id and hit
the falsy-check `break`: the worker is gone, `"x"` is still queued, and the
call is finished with empty results. -/
def blankFirstStopped : BulkState :=
  { total := 2
    queue := [(1, "x")]
    succeeded := []
    failed := []
    inProgress := []
    workers := [WorkerState.done]
    events := []
    opCalls := 0
    dropped := [""] }

/-!
### The spawn phase, modelled faithfully

The `for` loop `for (let i = 0; i < Math.min(concurrency, queue.length); i++)`
re-evaluates its bound before every iteration, and each pushed
`(async () => {...})()` runs **synchronously** until its first genuinely
suspending `await`: it claims one id from the shared queue (several, if the
operation throws synchronously; none, if the queue is already empty) before
the next bound check sees the shortened queue.  The static pool used by
`init` (the specification's `min(concurrency, len(ids))` formula) therefore
over-approximates the spawned worker count; the definitions below model the
loop itself.  The parameter `sync` tells, per id, whether `operation(id)`
throws synchronously (`some e`, landing in the same catch/finally without
suspending) or returns a still-pending promise (`none`, suspending the
worker); `pendingOp` is the ordinary case.  The fuel arguments bound the
loops; one more than the queue length always suffices because every inner
iteration consumes a queue entry and every outer iteration requires
`i < queue.length` for a strictly increasing `i`. -/

/-- An operation that returns a pending promise for every id: it settles
only later, through the event loop (`Directive.settle`). -/
def pendingOp : String → Option JsError :=
  fun _ => none

/-- Run one freshly invoked worker IIFE synchronously until it either
suspends at `await operation(bookmarkId)` or returns (queue empty or falsy
id).  Each non-recursive case is exactly one `runStep`; a synchronous throw
additionally takes the catch/finally path (`settleStep`) without
suspending and continues the loop. -/
def syncDriveFuel (sync : String → Option JsError) :
    Nat → BulkState → Nat → BulkState
  | 0, c, _ => c
  | fuel + 1, c, w =>
    match c.workers.get? w with
    | some WorkerState.looping =>
      match c.queue with
      | [] => runStep c w
      | (_, b) :: _ =>
        if b = "" then runStep c w
        else
          match sync b with
          | some _ => syncDriveFuel sync fuel (settleStep (runStep c w) w (sync b)) w
          | none => runStep c w
    | _ => c

/-- The spawn loop: while `i < Math.min(concurrency, queue.length)`
(re-evaluated on the current queue), push one worker at the end of the pool
and run it synchronously to its first suspension. -/
def spawnLoopFuel (sync : String → Option JsError) (concurrency : Int) :
    Nat → Nat → BulkState → BulkState
  | 0, _, c => c
  | fuel + 1, i, c =>
    if (i : Int) < min concurrency (c.queue.length : Int) then
      spawnLoopFuel sync concurrency fuel (i + 1)
        (syncDriveFuel sync (c.queue.length + 1)
          { c with workers := c.workers ++ [WorkerState.looping] }
          c.workers.length)
    else c

/-- The state just before the spawn loop: queue seeded, no workers yet. -/
def spawnInit (bookmarkIds : List String) : BulkState :=
  { total := bookmarkIds.length
    queue := bookmarkIds.enum
    succeeded := []
    failed := []
    inProgress := []
    workers := []
    events := []
    opCalls := 0
    dropped := [] }

/-- The state of the call when the spawn loop has finished: the workers
pushed so far are each parked at their first `await` (or already done). -/
def executeBulkSpawn (sync : String → Option JsError) (bookmarkIds : List String)
    (concurrency? : Option Int) : BulkState :=
  spawnLoopFuel sync (resolveConcurrency concurrency?) (bookmarkIds.length + 1) 0
    (spawnInit bookmarkIds)

/-- A full run in the dynamic-spawn model: the spawn phase followed by any
event-loop schedule of settlements and worker resumptions. -/
def bulkRunDyn (sync : String → Option JsError) (bookmarkIds : List String)
    (concurrency? : Option Int) (ds : List Directive) : BulkState :=
  ds.foldl step (executeBulkSpawn sync bookmarkIds concurrency?)

/-! ### General list lemmas used by the invariant proofs -/

theorem lt_length_of_get?_eq_some {α : Type} {l : List α} {n : Nat} {a : α}
    (h : l.get? n = some a) : n < l.length := by
  by_contra hn
  rw [List.get?_eq_none.mpr (Nat.le_of_not_lt hn)] at h
  exact Option.noConfusion h

theorem mem_set_of_ne {α : Type} {l : List α} {w : Nat} {v b a : α}
    (hb : b ∈ l) (hg : l.get? w = some a) (hne : b ≠ a) : b ∈ l.set w v := by
  induction l generalizing w with
  | nil => simp at hb
  | cons y ys ih =>
    cases w with
    | zero =>
      rw [List.get?_cons_zero] at hg
      injection hg with hg
      subst hg
      rcases List.mem_cons.mp hb with h | h
      · exact absurd h hne
      · exact List.mem_cons_of_mem _ h
    | succ n =>
      rw [List.get?_cons_succ] at hg
      rcases List.mem_cons.mp hb with h | h
      · exact h ▸ List.mem_cons_self _ _
      · exact List.mem_cons_of_mem _ (ih h hg)

theorem filterMap_set_none {α β : Type} (f : α → Option β) {l : List α} {w : Nat} {a : α}
    (b : α) (hg : l.get? w = some a) (ha : f a = none) (hb : f b = none) :
    (l.set w b).filterMap f = l.filterMap f := by
  induction l generalizing w with
  | nil => simp at hg
  | cons y ys ih =>
    cases w with
    | zero =>
      rw [List.get?_cons_zero] at hg
      injection hg with hg
      subst hg
      simp [List.filterMap_cons, ha, hb]
    | succ n =>
      rw [List.get?_cons_succ] at hg
      simp only [List.set_cons_succ, List.filterMap_cons]
      rw [ih hg]

theorem count_filterMap_set {α β : Type} [DecidableEq β] (f : α → Option β)
    {l : List α} {w : Nat} {a : α} (b : α) (hg : l.get? w = some a) (x : β) :
    ((l.set w b).filterMap f).count x + (f a).toList.count x
      = (l.filterMap f).count x + (f b).toList.count x := by
  induction l generalizing w with
  | nil => simp at hg
  | cons y ys ih =>
    cases w with
    | zero =>
      rw [List.get?_cons_zero] at hg
      injection hg with hg
      subst hg
      cases hfa : f y <;> cases hfb : f b <;>
        simp [List.filterMap_cons, hfa, hfb, List.count_cons] <;> omega
    | succ n =>
      rw [List.get?_cons_succ] at hg
      have h := ih hg
      cases hfy : f y <;>
        simp [List.set_cons_succ, List.filterMap_cons, hfy, List.count_cons] <;>
        omega

theorem length_filterMap_set {α β : Type} (f : α → Option β)
    {l : List α} {w : Nat} {a : α} (b : α) (hg : l.get? w = some a) :
    ((l.set w b).filterMap f).length + (f a).toList.length
      = (l.filterMap f).length + (f b).toList.length := by
  induction l generalizing w with
  | nil => simp at hg
  | cons y ys ih =>
    cases w with
    | zero =>
      rw [List.get?_cons_zero] at hg
      injection hg with hg
      subst hg
      cases hfa : f y <;> cases hfb : f b <;>
        simp [List.filterMap_cons, hfa, hfb] <;> omega
    | succ n =>
      rw [List.get?_cons_succ] at hg
      have h := ih hg
      cases hfy : f y <;> simp [List.set_cons_succ, List.filterMap_cons, hfy] <;> omega

theorem count_pair_eq_count_fst {l : List (String × String)} {x m : String}
    (h : ∀ p ∈ l, p.1 = x → p.2 = m) : l.count (x, m) = (l.map Prod.fst).count x := by
  induction l with
  | nil => rfl
  | cons p l ih =>
    have hl : ∀ q ∈ l, q.1 = x → q.2 = m := fun q hq => h q (List.mem_cons_of_mem _ hq)
    by_cases hp : p.1 = x
    · have hp2 : p.2 = m := h p (List.mem_cons_self _ _) hp
      have : p = (x, m) := Prod.ext hp hp2
      subst this
      simp [List.count_cons, ih hl]
    · have hne : p ≠ (x, m) := fun hc => hp (by rw [hc])
      simp [List.count_cons, ih hl, hne, hp]

theorem nodup_le_length_of_subset {α : Type} {l l' : List α}
    (hn : l.Nodup) (hs : l ⊆ l') : l.length ≤ l'.length :=
  (hn.subperm hs).length_le

/-! ### Small facts about the model's auxiliary functions -/

theorem mem_setAdd {s : List String} {x y : String} :
    y ∈ setAdd s x ↔ y ∈ s ∨ y = x := by
  unfold setAdd
  split
  · constructor
    · exact Or.inl
    · rintro (h | rfl) <;> [exact h; assumption]
  · simp [List.mem_append]

theorem setAdd_nodup {s : List String} (x : String) (h : s.Nodup) :
    (setAdd s x).Nodup := by
  unfold setAdd
  split
  · exact h
  · next hx =>
      rw [List.nodup_append]
      exact ⟨h, List.nodup_singleton x,
        fun a ha hax => hx ((List.mem_singleton.mp hax) ▸ ha)⟩

theorem awaitingIds_replicate (n : Nat) :
    awaitingIds (List.replicate n WorkerState.looping) = [] := by
  induction n with
  | zero => rfl
  | succ n ih => simpa [awaitingIds, List.replicate_succ, List.filterMap_cons, workerId]
      using ih

theorem awaitingIdxs_replicate (n : Nat) :
    awaitingIdxs (List.replicate n WorkerState.looping) = [] := by
  induction n with
  | zero => rfl
  | succ n ih => simpa [awaitingIdxs, List.replicate_succ, List.filterMap_cons, workerIdx]
      using ih

/-! ### The reachable-state invariant -/

/-- All facts preserved by every transition from the initial state of a call
on `ids` with concurrency option `conc?`.  The heart is `perm`: at any time,
the queue's ids, the ids claimed by awaiting workers, the terminal outcomes
and the ids discarded by the falsy-`break` path partition the input exactly. -/
structure Inv (ids : List String) (conc? : Option Int) (c : BulkState) : Prop where
  total_eq : c.total = ids.length
  wlen : c.workers.length = numWorkers ids conc?
  perm : List.Perm
    (queueIds c ++ awaitingIds c.workers ++ c.succeeded ++ failedIds c ++ c.dropped) ids
  dropped_blank : ∀ x ∈ c.dropped, x = ""
  opCalls_eq : c.opCalls
    = (awaitingIds c.workers).length + c.succeeded.length + c.failed.length
  events_len : c.events.length = c.opCalls + c.succeeded.length + c.failed.length
  inProg_nodup : c.inProgress.Nodup
  inProg_wit : ∀ x ∈ c.inProgress, ∃ i, WorkerState.awaiting i x ∈ c.workers
  idx_nodup : (c.queue.map Prod.fst ++ awaitingIdxs c.workers).Nodup
  done_queue : WorkerState.done ∈ c.workers → c.queue = [] ∨ c.dropped ≠ []
  ev_bound : ∀ e ∈ c.events,
    e.completed + e.failed + e.inProgress ≤ e.total ∧ e.total = c.total
  ev_counts : ∀ e ∈ c.events,
    e.completed ≤ c.succeeded.length ∧ e.failed ≤ c.failed.length
  ev_pairwise : c.events.Pairwise ProgLE
  ev_last : ∀ e, c.events.getLast? = some e →
    e.completed = c.succeeded.length ∧ e.failed = c.failed.length

theorem inv_init (ids : List String) (conc? : Option Int) :
    Inv ids conc? (init ids conc?) := by
  refine ⟨rfl, ?_, ?_, ?_, ?_, ?_, ?_, ?_, ?_, ?_, ?_, ?_, ?_, ?_⟩
  · simp [init]
  · simp [init, queueIds, failedIds, awaitingIds_replicate, List.enum_map_snd]
  · simp [init]
  · simp [init, awaitingIds_replicate]
  · simp [init]
  · simp [init]
  · simp [init]
  · simp [init, awaitingIdxs_replicate, List.enum_map_fst, List.nodup_range]
  · intro h
    simp only [init] at h
    exact absurd (List.eq_of_mem_replicate h) (by simp)
  · simp [init]
  · simp [init]
  · simp [init]
  · simp [init]

/-! ### Helper lemmas for the preservation proof -/

theorem count_awaitingIds_claim {W : List WorkerState} {w : Nat}
    (hg : W.get? w = some WorkerState.looping) (i : Nat) (b x : String) :
    (awaitingIds (W.set w (WorkerState.awaiting i b))).count x
      = (awaitingIds W).count x + (if b = x then 1 else 0) := by
  have h := count_filterMap_set workerId (WorkerState.awaiting i b) hg x
  simp only [workerId, Option.toList, List.count_nil, List.count_singleton] at h
  simp only [awaitingIds]
  by_cases hx : b = x <;> simp [hx] at h ⊢ <;> omega

theorem count_awaitingIds_settle {W : List WorkerState} {w i : Nat} {b : String}
    (hg : W.get? w = some (WorkerState.awaiting i b)) (x : String) :
    (awaitingIds (W.set w WorkerState.looping)).count x + (if b = x then 1 else 0)
      = (awaitingIds W).count x := by
  have h := count_filterMap_set workerId WorkerState.looping hg x
  simp only [workerId, Option.toList, List.count_nil, List.count_singleton] at h
  simp only [awaitingIds]
  by_cases hx : b = x <;> simp [hx] at h ⊢ <;> omega

theorem count_awaitingIdxs_claim {W : List WorkerState} {w : Nat}
    (hg : W.get? w = some WorkerState.looping) (i : Nat) (b : String) (x : Nat) :
    (awaitingIdxs (W.set w (WorkerState.awaiting i b))).count x
      = (awaitingIdxs W).count x + (if i = x then 1 else 0) := by
  have h := count_filterMap_set workerIdx (WorkerState.awaiting i b) hg x
  simp only [workerIdx, Option.toList, List.count_nil, List.count_singleton] at h
  simp only [awaitingIdxs]
  by_cases hx : i = x <;> simp [hx] at h ⊢ <;> omega

theorem count_awaitingIdxs_settle {W : List WorkerState} {w i : Nat} {b : String}
    (hg : W.get? w = some (WorkerState.awaiting i b)) (x : Nat) :
    (awaitingIdxs (W.set w WorkerState.looping)).count x + (if i = x then 1 else 0)
      = (awaitingIdxs W).count x := by
  have h := count_filterMap_set workerIdx WorkerState.looping hg x
  simp only [workerIdx, Option.toList, List.count_nil, List.count_singleton] at h
  simp only [awaitingIdxs]
  by_cases hx : i = x <;> simp [hx] at h ⊢ <;> omega

theorem length_awaitingIds_claim {W : List WorkerState} {w : Nat}
    (hg : W.get? w = some WorkerState.looping) (i : Nat) (b : String) :
    (awaitingIds (W.set w (WorkerState.awaiting i b))).length
      = (awaitingIds W).length + 1 := by
  have h := length_filterMap_set workerId (WorkerState.awaiting i b) hg
  simp only [workerId, Option.toList] at h
  simpa [awaitingIds] using h

theorem length_awaitingIds_settle {W : List WorkerState} {w i : Nat} {b : String}
    (hg : W.get? w = some (WorkerState.awaiting i b)) :
    (awaitingIds (W.set w WorkerState.looping)).length + 1
      = (awaitingIds W).length := by
  have h := length_filterMap_set workerId WorkerState.looping hg
  simp only [workerId, Option.toList] at h
  simpa [awaitingIds] using h

theorem awaitingIds_set_done {W : List WorkerState} {w : Nat}
    (hg : W.get? w = some WorkerState.looping) :
    awaitingIds (W.set w WorkerState.done) = awaitingIds W :=
  filterMap_set_none workerId WorkerState.done hg rfl rfl

theorem awaitingIdxs_set_done {W : List WorkerState} {w : Nat}
    (hg : W.get? w = some WorkerState.looping) :
    awaitingIdxs (W.set w WorkerState.done) = awaitingIdxs W :=
  filterMap_set_none workerIdx WorkerState.done hg rfl rfl

theorem inProg_le_awaiting {c : BulkState} (hnd : c.inProgress.Nodup)
    (hwit : ∀ x ∈ c.inProgress, ∃ i, WorkerState.awaiting i x ∈ c.workers) :
    c.inProgress.length ≤ (awaitingIds c.workers).length := by
  refine nodup_le_length_of_subset hnd (fun x hx => ?_)
  obtain ⟨i, hi⟩ := hwit x hx
  exact List.mem_filterMap.mpr ⟨_, hi, rfl⟩

theorem inv_length_sum {ids : List String} {conc? : Option Int} {c : BulkState}
    (inv : Inv ids conc? c) :
    (queueIds c).length + (awaitingIds c.workers).length + c.succeeded.length
      + c.failed.length + c.dropped.length = ids.length := by
  have h := inv.perm.length_eq
  simp only [List.length_append, failedIds, List.length_map] at h
  omega

theorem inv_events_extend {es : List BulkOperationProgress} {p : BulkOperationProgress}
    {t S F : Nat}
    (hevb : ∀ e ∈ es, e.completed + e.failed + e.inProgress ≤ e.total ∧ e.total = t)
    (hevc : ∀ e ∈ es, e.completed ≤ S ∧ e.failed ≤ F)
    (hevp : es.Pairwise ProgLE)
    (hpt : p.total = t) (hpc : S ≤ p.completed) (hpf : F ≤ p.failed)
    (hpb : p.completed + p.failed + p.inProgress ≤ p.total) :
    (∀ e ∈ es ++ [p], e.completed + e.failed + e.inProgress ≤ e.total ∧ e.total = t)
    ∧ (∀ e ∈ es ++ [p], e.completed ≤ p.completed ∧ e.failed ≤ p.failed)
    ∧ (es ++ [p]).Pairwise ProgLE
    ∧ (∀ e, (es ++ [p]).getLast? = some e → e = p) := by
  refine ⟨?_, ?_, ?_, ?_⟩
  · intro e he
    rcases List.mem_append.mp he with h | h
    · exact hevb e h
    · rw [List.mem_singleton.mp h]
      exact ⟨hpb, hpt⟩
  · intro e he
    rcases List.mem_append.mp he with h | h
    · exact ⟨Nat.le_trans (hevc e h).1 hpc, Nat.le_trans (hevc e h).2 hpf⟩
    · rw [List.mem_singleton.mp h]
      exact ⟨Nat.le_refl _, Nat.le_refl _⟩
  · refine List.pairwise_append.mpr ⟨hevp, List.pairwise_singleton _ _, ?_⟩
    intro e he p' hp'
    rw [List.mem_singleton.mp hp']
    exact ⟨Nat.le_trans (hevc e he).1 hpc, Nat.le_trans (hevc e he).2 hpf⟩
  · intro e he
    rw [List.getLast?_concat] at he
    exact (Option.some.inj he).symm

/-! ### Preservation of the invariant, branch by branch -/

theorem inv_run_exit {ids : List String} {conc? : Option Int} {c : BulkState} {w : Nat}
    (inv : Inv ids conc? c) (hg : c.workers.get? w = some WorkerState.looping)
    (hq : c.queue = []) :
    Inv ids conc? { c with workers := c.workers.set w WorkerState.done } := by
  obtain ⟨ht, hw, hp, hdb, hoc, hel, hnd, hwit, hidx, hdq, hevb, hevc, hevp, hevl⟩ := inv
  refine ⟨ht, ?_, ?_, hdb, ?_, hel, hnd, ?_, ?_, ?_, hevb, hevc, hevp, hevl⟩
  · simpa [List.length_set] using hw
  · simpa [queueIds, failedIds, awaitingIds_set_done hg] using hp
  · simpa [awaitingIds_set_done hg] using hoc
  · intro x hx
    obtain ⟨i, hi⟩ := hwit x hx
    exact ⟨i, mem_set_of_ne hi hg (by simp)⟩
  · simpa [awaitingIdxs_set_done hg] using hidx
  · intro _
    exact Or.inl hq

theorem inv_run_drop {ids : List String} {conc? : Option Int} {c : BulkState} {w i : Nat}
    {b : String} {rest : List (Nat × String)}
    (inv : Inv ids conc? c) (hg : c.workers.get? w = some WorkerState.looping)
    (hq : c.queue = (i, b) :: rest) (hb : b = "") :
    Inv ids conc?
      { c with queue := rest
               workers := c.workers.set w WorkerState.done
               dropped := c.dropped ++ [b] } := by
  obtain ⟨ht, hw, hp, hdb, hoc, hel, hnd, hwit, hidx, hdq, hevb, hevc, hevp, hevl⟩ := inv
  refine ⟨ht, ?_, ?_, ?_, ?_, hel, hnd, ?_, ?_, ?_, hevb, hevc, hevp, hevl⟩
  · simpa [List.length_set] using hw
  · rw [List.perm_iff_count] at hp ⊢
    intro x
    have hx := hp x
    simp only [queueIds, failedIds, hq, List.map_cons, List.count_append, List.count_cons,
      awaitingIds_set_done hg] at hx ⊢
    by_cases hbx : b = x <;> simp [hbx] at hx ⊢ <;> omega
  · intro x hx
    rcases List.mem_append.mp hx with h | h
    · exact hdb x h
    · rw [List.mem_singleton.mp h, hb]
  · simpa [awaitingIds_set_done hg] using hoc
  · intro x hx
    obtain ⟨j, hj⟩ := hwit x hx
    exact ⟨j, mem_set_of_ne hj hg (by simp)⟩
  · rw [awaitingIdxs_set_done hg]
    have h := hidx
    rw [hq, List.map_cons, List.cons_append, List.nodup_cons] at h
    exact h.2
  · intro _
    exact Or.inr (by simp)

theorem inv_run_claim {ids : List String} {conc? : Option Int} {c : BulkState} {w i : Nat}
    {b : String} {rest : List (Nat × String)}
    (inv : Inv ids conc? c) (hg : c.workers.get? w = some WorkerState.looping)
    (hq : c.queue = (i, b) :: rest) :
    Inv ids conc?
      (updateProgress
        { c with queue := rest
                 inProgress := setAdd c.inProgress b
                 workers := c.workers.set w (WorkerState.awaiting i b)
                 opCalls := c.opCalls + 1 }) := by
  obtain ⟨ht, hw, hp, hdb, hoc, hel, hnd, hwit, hidx, hdq, hevb, hevc, hevp, hevl⟩ := inv
  have hperm : List.Perm
      (rest.map Prod.snd ++ awaitingIds (c.workers.set w (WorkerState.awaiting i b))
        ++ c.succeeded ++ c.failed.map Prod.fst ++ c.dropped) ids := by
    rw [List.perm_iff_count] at hp ⊢
    intro x
    have hx := hp x
    simp only [queueIds, failedIds, hq, List.map_cons, List.count_append,
      List.count_cons] at hx ⊢
    rw [count_awaitingIds_claim hg]
    by_cases hbx : b = x <;> simp [hbx] at hx ⊢ <;> omega
  have hnd' : (setAdd c.inProgress b).Nodup := setAdd_nodup b hnd
  have hwit' : ∀ x ∈ setAdd c.inProgress b,
      ∃ j, WorkerState.awaiting j x ∈ c.workers.set w (WorkerState.awaiting i b) := by
    intro x hx
    rcases mem_setAdd.mp hx with h | rfl
    · obtain ⟨j, hj⟩ := hwit x h
      exact ⟨j, mem_set_of_ne hj hg (by simp)⟩
    · exact ⟨i, List.mem_set _ _ (lt_length_of_get?_eq_some hg) _⟩
  have hlen : rest.length + (awaitingIds (c.workers.set w (WorkerState.awaiting i b))).length
      + c.succeeded.length + c.failed.length + c.dropped.length = ids.length := by
    have h := hperm.length_eq
    simp only [List.length_append, List.length_map] at h
    omega
  have hip := inProg_le_awaiting (c := { c with
      queue := rest
      inProgress := setAdd c.inProgress b
      workers := c.workers.set w (WorkerState.awaiting i b)
      opCalls := c.opCalls + 1 }) hnd' hwit'
  have hext := inv_events_extend (p := snap { c with
      queue := rest
      inProgress := setAdd c.inProgress b
      workers := c.workers.set w (WorkerState.awaiting i b)
      opCalls := c.opCalls + 1 }) hevb hevc hevp rfl (Nat.le_refl _) (Nat.le_refl _)
    (by
      simp only [snap, ht]
      simp only [awaitingIds] at hip hlen ⊢
      omega)
  refine ⟨ht, ?_, ?_, hdb, ?_, ?_, hnd', hwit', ?_, ?_, hext.1, ?_, hext.2.2.1, ?_⟩
  · simpa [updateProgress, List.length_set] using hw
  · simpa [updateProgress, queueIds, failedIds] using hperm
  · have h := length_awaitingIds_claim hg i b
    simp only [updateProgress]
    simp only [awaitingIds] at h hoc ⊢
    omega
  · simp only [updateProgress, List.length_append, List.length_singleton]
    omega
  · rw [List.nodup_iff_count_le_one] at hidx ⊢
    intro x
    have hx := hidx x
    simp only [updateProgress, hq, List.map_cons, List.count_append,
      List.count_cons] at hx ⊢
    rw [count_awaitingIdxs_claim hg]
    by_cases hix : i = x <;> simp [hix] at hx ⊢ <;> omega
  · intro hdone
    simp only [updateProgress] at hdone
    rcases List.mem_or_eq_of_mem_set hdone with h | h
    · rcases hdq h with h' | h'
      · rw [hq] at h'
        exact absurd h' (by simp)
      · exact Or.inr h'
    · exact absurd h (by simp)
  · intro e he
    have h := hext.2.1 e he
    simpa [updateProgress, snap] using h
  · intro e he
    have h := hext.2.2.2 e he
    rw [h]
    exact ⟨rfl, rfl⟩

theorem inv_settle_ok {ids : List String} {conc? : Option Int} {c : BulkState} {w i : Nat}
    {b : String}
    (inv : Inv ids conc? c) (hg : c.workers.get? w = some (WorkerState.awaiting i b)) :
    Inv ids conc?
      (updateProgress
        { c with succeeded := c.succeeded ++ [b]
                 inProgress := c.inProgress.erase b
                 workers := c.workers.set w WorkerState.looping }) := by
  obtain ⟨ht, hw, hp, hdb, hoc, hel, hnd, hwit, hidx, hdq, hevb, hevc, hevp, hevl⟩ := inv
  have hperm : List.Perm
      (queueIds c ++ awaitingIds (c.workers.set w WorkerState.looping)
        ++ (c.succeeded ++ [b]) ++ c.failed.map Prod.fst ++ c.dropped) ids := by
    rw [List.perm_iff_count] at hp ⊢
    intro x
    have hx := hp x
    have ha := count_awaitingIds_settle hg x
    simp only [queueIds, failedIds, List.count_append, List.count_cons,
      List.count_singleton] at hx ⊢
    by_cases hbx : b = x <;> simp [hbx] at hx ha ⊢ <;> omega
  have hnd' : (c.inProgress.erase b).Nodup := hnd.erase b
  have hwit' : ∀ x ∈ c.inProgress.erase b,
      ∃ j, WorkerState.awaiting j x ∈ c.workers.set w WorkerState.looping := by
    intro x hx
    have hxb : x ≠ b := (hnd.mem_erase_iff.mp hx).1
    obtain ⟨j, hj⟩ := hwit x (List.mem_of_mem_erase hx)
    exact ⟨j, mem_set_of_ne hj hg (by simp [hxb])⟩
  have hlen : (queueIds c).length + (awaitingIds (c.workers.set w WorkerState.looping)).length
      + (c.succeeded.length + 1) + c.failed.length + c.dropped.length = ids.length := by
    have h := hperm.length_eq
    simp only [List.length_append, List.length_map, List.length_singleton] at h
    omega
  have hip := inProg_le_awaiting (c := { c with
      succeeded := c.succeeded ++ [b]
      inProgress := c.inProgress.erase b
      workers := c.workers.set w WorkerState.looping }) hnd' hwit'
  have hext := inv_events_extend (p := snap { c with
      succeeded := c.succeeded ++ [b]
      inProgress := c.inProgress.erase b
      workers := c.workers.set w WorkerState.looping })
    hevb hevc hevp rfl (by simp [snap]) (Nat.le_refl _)
    (by
      simp only [snap, ht]
      simp only [awaitingIds] at hip hlen ⊢
      simp only [List.length_append, List.length_singleton] at hip ⊢
      omega)
  refine ⟨ht, ?_, ?_, hdb, ?_, ?_, hnd', hwit', ?_, ?_, hext.1, ?_, hext.2.2.1, ?_⟩
  · simpa [updateProgress, List.length_set] using hw
  · simpa [updateProgress, queueIds, failedIds] using hperm
  · have h := length_awaitingIds_settle hg
    simp only [updateProgress, List.length_append, List.length_singleton]
    simp only [awaitingIds] at h hoc ⊢
    omega
  · simp only [updateProgress, List.length_append, List.length_singleton]
    omega
  · rw [List.nodup_iff_count_le_one] at hidx ⊢
    intro x
    have hx := hidx x
    have ha := count_awaitingIdxs_settle hg x
    simp only [updateProgress, List.count_append] at hx ⊢
    omega
  · intro hdone
    simp only [updateProgress] at hdone
    rcases List.mem_or_eq_of_mem_set hdone with h | h
    · exact hdq h
    · exact absurd h (by simp)
  · intro e he
    have h := hext.2.1 e he
    simpa [updateProgress, snap] using h
  · intro e he
    have h := hext.2.2.2 e he
    rw [h]
    exact ⟨rfl, rfl⟩

theorem inv_settle_err {ids : List String} {conc? : Option Int} {c : BulkState} {w i : Nat}
    {b m : String}
    (inv : Inv ids conc? c) (hg : c.workers.get? w = some (WorkerState.awaiting i b)) :
    Inv ids conc?
      (updateProgress
        { c with failed := c.failed ++ [(b, m)]
                 inProgress := c.inProgress.erase b
                 workers := c.workers.set w WorkerState.looping }) := by
  obtain ⟨ht, hw, hp, hdb, hoc, hel, hnd, hwit, hidx, hdq, hevb, hevc, hevp, hevl⟩ := inv
  have hperm : List.Perm
      (queueIds c ++ awaitingIds (c.workers.set w WorkerState.looping)
        ++ c.succeeded ++ (c.failed ++ [(b, m)]).map Prod.fst ++ c.dropped) ids := by
    rw [List.perm_iff_count] at hp ⊢
    intro x
    have hx := hp x
    have ha := count_awaitingIds_settle hg x
    simp only [queueIds, failedIds, List.count_append, List.count_cons,
      List.count_singleton, List.map_append, List.map_cons, List.map_nil] at hx ⊢
    by_cases hbx : b = x <;> simp [hbx] at hx ha ⊢ <;> omega
  have hnd' : (c.inProgress.erase b).Nodup := hnd.erase b
  have hwit' : ∀ x ∈ c.inProgress.erase b,
      ∃ j, WorkerState.awaiting j x ∈ c.workers.set w WorkerState.looping := by
    intro x hx
    have hxb : x ≠ b := (hnd.mem_erase_iff.mp hx).1
    obtain ⟨j, hj⟩ := hwit x (List.mem_of_mem_erase hx)
    exact ⟨j, mem_set_of_ne hj hg (by simp [hxb])⟩
  have hlen : (queueIds c).length + (awaitingIds (c.workers.set w WorkerState.looping)).length
      + c.succeeded.length + (c.failed.length + 1) + c.dropped.length = ids.length := by
    have h := hperm.length_eq
    simp only [List.length_append, List.length_map, List.length_singleton] at h
    omega
  have hip := inProg_le_awaiting (c := { c with
      failed := c.failed ++ [(b, m)]
      inProgress := c.inProgress.erase b
      workers := c.workers.set w WorkerState.looping }) hnd' hwit'
  have hext := inv_events_extend (p := snap { c with
      failed := c.failed ++ [(b, m)]
      inProgress := c.inProgress.erase b
      workers := c.workers.set w WorkerState.looping })
    hevb hevc hevp rfl (Nat.le_refl _) (by simp [snap])
    (by
      simp only [snap, ht]
      simp only [awaitingIds] at hip hlen ⊢
      simp only [List.length_append, List.length_singleton] at hip ⊢
      omega)
  refine ⟨ht, ?_, ?_, hdb, ?_, ?_, hnd', hwit', ?_, ?_, hext.1, ?_, hext.2.2.1, ?_⟩
  · simpa [updateProgress, List.length_set] using hw
  · simpa [updateProgress, queueIds, failedIds] using hperm
  · have h := length_awaitingIds_settle hg
    simp only [updateProgress, List.length_append, List.length_singleton]
    simp only [awaitingIds] at h hoc ⊢
    omega
  · simp only [updateProgress, List.length_append, List.length_singleton]
    omega
  · rw [List.nodup_iff_count_le_one] at hidx ⊢
    intro x
    have hx := hidx x
    have ha := count_awaitingIdxs_settle hg x
    simp only [updateProgress, List.count_append] at hx ⊢
    omega
  · intro hdone
    simp only [updateProgress] at hdone
    rcases List.mem_or_eq_of_mem_set hdone with h | h
    · exact hdq h
    · exact absurd h (by simp)
  · intro e he
    have h := hext.2.1 e he
    simpa [updateProgress, snap] using h
  · intro e he
    have h := hext.2.2.2 e he
    rw [h]
    exact ⟨rfl, rfl⟩

/-! ### The invariant holds at every reachable state -/

theorem inv_step {ids : List String} {conc? : Option Int} {c : BulkState}
    (inv : Inv ids conc? c) (d : Directive) : Inv ids conc? (step c d) := by
  cases d with
  | run w =>
    show Inv ids conc? (runStep c w)
    cases hg : c.workers[w]? with
    | none => simpa [runStep, hg] using inv
    | some ws =>
      have hg2 : c.workers.get? w = some ws := by rw [List.get?_eq_getElem?]; exact hg
      cases ws with
      | looping =>
        cases hq : c.queue with
        | nil => simpa [runStep, hg, hq] using inv_run_exit inv hg2 hq
        | cons hd rest =>
          obtain ⟨i, b⟩ := hd
          by_cases hb : b = ""
          · simpa [runStep, hg, hq, hb] using inv_run_drop inv hg2 hq hb
          · simpa [runStep, hg, hq, hb] using inv_run_claim inv hg2 hq
      | awaiting i b => simpa [runStep, hg] using inv
      | done => simpa [runStep, hg] using inv
  | settle w e =>
    show Inv ids conc? (settleStep c w e)
    cases hg : c.workers[w]? with
    | none => simpa [settleStep, hg] using inv
    | some ws =>
      have hg2 : c.workers.get? w = some ws := by rw [List.get?_eq_getElem?]; exact hg
      cases ws with
      | looping => simpa [settleStep, hg] using inv
      | awaiting i b =>
        cases e with
        | none => simpa [settleStep, hg] using inv_settle_ok inv hg2
        | some err =>
          simpa [settleStep, hg] using inv_settle_err (m := captureMsg err) inv hg2
      | done => simpa [settleStep, hg] using inv

theorem inv_foldl {ids : List String} {conc? : Option Int} (ds : List Directive)
    {c : BulkState} (inv : Inv ids conc? c) : Inv ids conc? (ds.foldl step c) := by
  induction ds generalizing c with
  | nil => simpa using inv
  | cons d ds ih => exact ih (inv_step inv d)

theorem inv_bulkRun (ids : List String) (conc? : Option Int) (ds : List Directive) :
    Inv ids conc? (bulkRun ids conc? ds) :=
  inv_foldl ds (inv_init ids conc?)

/-- Every deterministic-operation transition is a plain transition. -/
theorem inv_stepOp {ids : List String} {conc? : Option Int} {c : BulkState}
    (op : String → Option JsError) (inv : Inv ids conc? c) (d : Directive) :
    Inv ids conc? (stepOp op c d) := by
  cases d with
  | run w => exact inv_step inv (Directive.run w)
  | settle w e =>
    show Inv ids conc? (stepOp op c (Directive.settle w e))
    cases hg : c.workers[w]? with
    | none => simpa [stepOp, hg] using inv
    | some ws =>
      cases ws with
      | looping => simpa [stepOp, hg] using inv
      | awaiting i b =>
        have h : stepOp op c (Directive.settle w e) = settleStep c w (op b) := by
          simp [stepOp, hg]
        rw [h]
        exact inv_step inv (Directive.settle w (op b))
      | done => simpa [stepOp, hg] using inv

theorem inv_bulkRunOp (op : String → Option JsError) (ids : List String)
    (conc? : Option Int) (ds : List Directive) :
    Inv ids conc? (bulkRunOp op ids conc? ds) := by
  suffices h : ∀ c, Inv ids conc? c → Inv ids conc? (ds.foldl (stepOp op) c) from
    h _ (inv_init ids conc?)
  induction ds with
  | nil => intro c hc; simpa using hc
  | cons d ds ih => intro c hc; exact ih _ (inv_stepOp op hc d)

/-! ### Outcome bookkeeping for a deterministic operation -/

theorem runStep_succeeded (c : BulkState) (w : Nat) :
    (runStep c w).succeeded = c.succeeded := by
  cases hg : c.workers[w]? with
  | none => simp [runStep, hg]
  | some ws =>
    cases ws with
    | looping =>
      cases hq : c.queue with
      | nil => simp [runStep, hg, hq]
      | cons hd rest =>
        obtain ⟨i, b⟩ := hd
        by_cases hb : b = "" <;> simp [runStep, hg, hq, hb, updateProgress]
    | awaiting i b => simp [runStep, hg]
    | done => simp [runStep, hg]

theorem runStep_failed (c : BulkState) (w : Nat) :
    (runStep c w).failed = c.failed := by
  cases hg : c.workers[w]? with
  | none => simp [runStep, hg]
  | some ws =>
    cases ws with
    | looping =>
      cases hq : c.queue with
      | nil => simp [runStep, hg, hq]
      | cons hd rest =>
        obtain ⟨i, b⟩ := hd
        by_cases hb : b = "" <;> simp [runStep, hg, hq, hb, updateProgress]
    | awaiting i b => simp [runStep, hg]
    | done => simp [runStep, hg]

/-- With a deterministic operation, the succeeded list only ever holds ids
the operation fulfils for, and every failed entry carries the captured
message of the error the operation produced for its id. -/
structure InvOp (op : String → Option JsError) (c : BulkState) : Prop where
  succ_ok : ∀ x ∈ c.succeeded, op x = none
  failed_err : ∀ p ∈ c.failed, ∃ e, op p.1 = some e ∧ p.2 = captureMsg e

theorem invOp_init (op : String → Option JsError) (ids : List String)
    (conc? : Option Int) : InvOp op (init ids conc?) :=
  ⟨by simp [init], by simp [init]⟩

theorem invOp_stepOp (op : String → Option JsError) {c : BulkState}
    (h : InvOp op c) (d : Directive) : InvOp op (stepOp op c d) := by
  obtain ⟨hs, hf⟩ := h
  cases d with
  | run w =>
    refine ⟨?_, ?_⟩
    · show ∀ x ∈ (runStep c w).succeeded, op x = none
      rw [runStep_succeeded]
      exact hs
    · show ∀ p ∈ (runStep c w).failed, ∃ e, op p.1 = some e ∧ p.2 = captureMsg e
      rw [runStep_failed]
      exact hf
  | settle w e =>
    cases hg : c.workers[w]? with
    | none =>
      have hid : stepOp op c (Directive.settle w e) = c := by simp [stepOp, hg]
      rw [hid]
      exact ⟨hs, hf⟩
    | some ws =>
      cases ws with
      | looping =>
        have hid : stepOp op c (Directive.settle w e) = c := by simp [stepOp, hg]
        rw [hid]
        exact ⟨hs, hf⟩
      | awaiting i b =>
        have hstep : stepOp op c (Directive.settle w e) = settleStep c w (op b) := by
          simp [stepOp, hg]
        rw [hstep]
        cases hop : op b with
        | none =>
          have hpost : settleStep c w none = updateProgress
              { c with succeeded := c.succeeded ++ [b]
                       inProgress := c.inProgress.erase b
                       workers := c.workers.set w WorkerState.looping } := by
            simp [settleStep, hg]
          rw [hpost]
          refine ⟨?_, ?_⟩
          · intro x hx
            simp only [updateProgress] at hx
            rcases List.mem_append.mp hx with hx' | hx'
            · exact hs x hx'
            · rw [List.mem_singleton.mp hx']
              exact hop
          · intro p hp
            exact hf p (by simpa [updateProgress] using hp)
        | some err =>
          have hpost : settleStep c w (some err) = updateProgress
              { c with failed := c.failed ++ [(b, captureMsg err)]
                       inProgress := c.inProgress.erase b
                       workers := c.workers.set w WorkerState.looping } := by
            simp [settleStep, hg]
          rw [hpost]
          refine ⟨?_, ?_⟩
          · intro x hx
            exact hs x (by simpa [updateProgress] using hx)
          · intro p hp
            simp only [updateProgress] at hp
            rcases List.mem_append.mp hp with hp' | hp'
            · exact hf p hp'
            · rw [List.mem_singleton.mp hp']
              exact ⟨err, hop, rfl⟩
      | done =>
        have hid : stepOp op c (Directive.settle w e) = c := by simp [stepOp, hg]
        rw [hid]
        exact ⟨hs, hf⟩

theorem invOp_bulkRunOp (op : String → Option JsError) (ids : List String)
    (conc? : Option Int) (ds : List Directive) :
    InvOp op (bulkRunOp op ids conc? ds) := by
  suffices h : ∀ c, InvOp op c → InvOp op (ds.foldl (stepOp op) c) from
    h _ (invOp_init op ids conc?)
  induction ds with
  | nil => intro c hc; simpa using hc
  | cons d ds ih => intro c hc; exact ih _ (invOp_stepOp op hc d)

/-! ### Facts about finished states -/

theorem finished_awaitingIds {c : BulkState} (hfin : finished c = true) :
    awaitingIds c.workers = [] := by
  unfold finished at hfin
  rw [List.all_eq_true] at hfin
  rw [awaitingIds, List.filterMap_eq_nil_iff]
  intro a ha
  have h := hfin a ha
  rw [beq_iff_eq] at h
  rw [h]
  rfl

theorem finished_done_mem {c : BulkState} (hfin : finished c = true)
    (hne : c.workers ≠ []) : WorkerState.done ∈ c.workers := by
  unfold finished at hfin
  rw [List.all_eq_true] at hfin
  obtain ⟨a, ha⟩ := List.exists_mem_of_ne_nil _ hne
  have h := hfin a ha
  rw [beq_iff_eq] at h
  rwa [h] at ha

theorem numWorkers_pos {ids : List String} {conc? : Option Int}
    (hc : 1 ≤ resolveConcurrency conc?) (hne : ids ≠ []) :
    1 ≤ numWorkers ids conc? := by
  unfold numWorkers
  have h : 1 ≤ (ids.length : Int) := by
    have := List.length_pos.mpr hne
    omega
  omega

/-- At any finished reachable state of a call on blank-free ids with at
least one worker, the queue is drained, nothing was dropped, and the
terminal outcomes partition the input exactly. -/
theorem drain {ids : List String} {conc? : Option Int} {c : BulkState}
    (inv : Inv ids conc? c) (hids : ∀ x ∈ ids, x ≠ "")
    (hfin : finished c = true) (hw : c.workers ≠ []) :
    c.queue = [] ∧ c.dropped = []
      ∧ List.Perm (c.succeeded ++ failedIds c) ids := by
  have hdrop : c.dropped = [] := by
    by_contra hne
    obtain ⟨x, hx⟩ := List.exists_mem_of_ne_nil _ hne
    have hxids : x ∈ ids := inv.perm.mem_iff.mp (by simp [hx])
    exact (hids x hxids) (inv.dropped_blank x hx)
  have hq : c.queue = [] := by
    rcases inv.done_queue (finished_done_mem hfin hw) with h | h
    · exact h
    · exact absurd hdrop h
  refine ⟨hq, hdrop, ?_⟩
  have hp := inv.perm
  simp only [queueIds, hq, hdrop, finished_awaitingIds hfin, List.map_nil,
    List.nil_append, List.append_nil] at hp
  exact hp

/-- Terminal accounting: at any finished reachable state of a call on
blank-free ids with positive effective concurrency, the partition is exact,
the operation was invoked once per input id, and two snapshots were emitted
per input id. -/
theorem terminal_partition {ids : List String} {conc? : Option Int} {c : BulkState}
    (inv : Inv ids conc? c) (hids : ∀ x ∈ ids, x ≠ "")
    (hc : 1 ≤ resolveConcurrency conc?) (hfin : finished c = true) :
    List.Perm (c.succeeded ++ failedIds c) ids ∧ c.opCalls = ids.length
      ∧ c.events.length = 2 * ids.length := by
  by_cases hne : ids = []
  · subst hne
    have h0 : (queueIds c ++ awaitingIds c.workers ++ c.succeeded
        ++ failedIds c ++ c.dropped).length = 0 := by
      rw [inv.perm.length_eq]
      rfl
    simp only [List.length_append, Nat.add_eq_zero] at h0
    obtain ⟨⟨⟨⟨hq0, ha0⟩, hs0⟩, hf0⟩, hd0⟩ := h0
    have hs : c.succeeded = [] := List.eq_nil_of_length_eq_zero hs0
    have hfi : failedIds c = [] := List.eq_nil_of_length_eq_zero hf0
    have hfl : c.failed.length = 0 := by
      have := hf0
      simpa [failedIds] using this
    refine ⟨by simp [hs, hfi], ?_, ?_⟩
    · rw [inv.opCalls_eq, ha0, hs0, hfl]
      rfl
    · rw [inv.events_len, inv.opCalls_eq, ha0, hs0, hfl]
      rfl
  · have hwne : c.workers ≠ [] := by
      have h1 := numWorkers_pos hc hne
      have h2 := inv.wlen
      intro hcon
      rw [hcon] at h2
      simp at h2
      omega
    obtain ⟨hq, hd, hperm⟩ := drain inv hids hfin hwne
    have hlen : c.succeeded.length + c.failed.length = ids.length := by
      have h := hperm.length_eq
      simpa [List.length_append, failedIds] using h
    have hawait : (awaitingIds c.workers).length = 0 := by
      rw [finished_awaitingIds hfin]
      rfl
    refine ⟨hperm, ?_, ?_⟩
    · rw [inv.opCalls_eq, hawait]
      omega
    · rw [inv.events_len, inv.opCalls_eq, hawait]
      omega

/-- The last snapshot of a finished run on a non-empty blank-free input
reports a complete partition. -/
theorem terminal_last_event {ids : List String} {conc? : Option Int} {c : BulkState}
    (inv : Inv ids conc? c) (hids : ∀ x ∈ ids, x ≠ "")
    (hc : 1 ≤ resolveConcurrency conc?) (hfin : finished c = true) (hne : ids ≠ []) :
    ∃ e, c.events.getLast? = some e ∧ e.completed + e.failed = e.total
      ∧ e.total = ids.length := by
  obtain ⟨hperm, _, hev⟩ := terminal_partition inv hids hc hfin
  have hlen : c.succeeded.length + c.failed.length = ids.length := by
    have h := hperm.length_eq
    simpa [List.length_append, failedIds] using h
  cases hgl : c.events.getLast? with
  | none =>
    rw [List.getLast?_eq_none_iff] at hgl
    rw [hgl] at hev
    have := List.length_pos.mpr hne
    simp only [List.length_nil] at hev
    omega
  | some e =>
    have hmem : e ∈ c.events := List.mem_of_getLast?_eq_some hgl
    have hb := inv.ev_bound e hmem
    have hl := inv.ev_last e hgl
    exact ⟨e, rfl, by rw [hl.1, hl.2, hb.2, inv.total_eq, hlen], by rw [hb.2, inv.total_eq]⟩

/-! ### Degenerate runs: no workers -/

theorem step_noop {c : BulkState} (h : c.workers = []) (d : Directive) :
    step c d = c := by
  cases d with
  | run w =>
    show runStep c w = c
    simp [runStep, h]
  | settle w e =>
    show settleStep c w e = c
    simp [settleStep, h]

theorem foldl_noop {c : BulkState} (h : c.workers = []) (ds : List Directive) :
    ds.foldl step c = c := by
  induction ds with
  | nil => rfl
  | cons d ds ih =>
    rw [List.foldl_cons, step_noop h d]
    exact ih

theorem numWorkers_nonpos {ids : List String} {k : Int} (hk : k ≤ 0) :
    numWorkers ids (some k) = 0 := by
  unfold numWorkers resolveConcurrency
  simp only [Option.getD]
  omega

theorem numWorkers_nil (conc? : Option Int) : numWorkers [] conc? = 0 := by
  unfold numWorkers
  have h : ((([] : List String).length : Nat) : Int) = 0 := by simp
  omega

/-! ### Reachable states of the blank-id scenario -/

theorem blankFirst_step_closure (c : BulkState) (d : Directive)
    (h : c = blankFirstStart ∨ c = blankFirstStopped) :
    step c d = blankFirstStart ∨ step c d = blankFirstStopped := by
  rcases h with rfl | rfl
  · cases d with
    | run w =>
      cases w with
      | zero => exact Or.inr (by decide)
      | succ n =>
        refine Or.inl ?_
        show runStep blankFirstStart (n + 1) = blankFirstStart
        simp [runStep, blankFirstStart]
    | settle w e =>
      refine Or.inl ?_
      show settleStep blankFirstStart w e = blankFirstStart
      cases w with
      | zero => simp [settleStep, blankFirstStart]
      | succ n => simp [settleStep, blankFirstStart]
  · cases d with
    | run w =>
      refine Or.inr ?_
      show runStep blankFirstStopped w = blankFirstStopped
      cases w with
      | zero => simp [runStep, blankFirstStopped]
      | succ n => simp [runStep, blankFirstStopped]
    | settle w e =>
      refine Or.inr ?_
      show settleStep blankFirstStopped w e = blankFirstStopped
      cases w with
      | zero => simp [settleStep, blankFirstStopped]
      | succ n => simp [settleStep, blankFirstStopped]

theorem blankFirst_reach (ds : List Directive) :
    bulkRun ["", "x"] (some 1) ds = blankFirstStart
      ∨ bulkRun ["", "x"] (some 1) ds = blankFirstStopped := by
  have hinit : init ["", "x"] (some 1) = blankFirstStart := by decide
  show (ds.foldl step (init ["", "x"] (some 1)) = _) ∨ _
  rw [hinit]
  suffices h : ∀ c, (c = blankFirstStart ∨ c = blankFirstStopped) →
      (ds.foldl step c = blankFirstStart ∨ ds.foldl step c = blankFirstStopped) from
    h _ (Or.inl rfl)
  induction ds with
  | nil => intro c hc; simpa using hc
  | cons d ds ih =>
    intro c hc
    exact ih _ (blankFirst_step_closure c d hc)

/-! ### The spawned worker count -/

theorem runStep_claim_eq {c : BulkState} {w j : Nat} {b : String}
    {rest : List (Nat × String)}
    (hg : c.workers[w]? = some WorkerState.looping)
    (hq : c.queue = (j, b) :: rest) (hb : b ≠ "") :
    runStep c w = updateProgress
      { c with queue := rest
               inProgress := setAdd c.inProgress b
               workers := c.workers.set w (WorkerState.awaiting j b)
               opCalls := c.opCalls + 1 } := by
  simp [runStep, hg, hq, hb]

theorem spawnLoop_workers_count (K : Int) : ∀ (fuel i : Nat) (c : BulkState),
    c.queue.length < fuel → (∀ x ∈ queueIds c, x ≠ "") →
    (spawnLoopFuel pendingOp K fuel i c).workers.length
      = c.workers.length + min (K.toNat - i) ((c.queue.length + i + 1) / 2 - i) := by
  intro fuel
  induction fuel with
  | zero =>
    intro i c hf hnf
    exact absurd hf (by omega)
  | succ fuel ih =>
    intro i c hf hnf
    by_cases hcond : (i : Int) < min K (c.queue.length : Int)
    · have hKi : (i : Int) < K := lt_of_lt_of_le hcond (min_le_left _ _)
      have hil : i < c.queue.length := by
        have h := lt_of_lt_of_le hcond (min_le_right _ _)
        exact_mod_cast h
      obtain ⟨⟨j, b⟩, rest, hq⟩ : ∃ hd rest, c.queue = hd :: rest := by
        cases hqq : c.queue with
        | nil => rw [hqq] at hil; simp at hil
        | cons hd rest => exact ⟨hd, rest, rfl⟩
      have hb : b ≠ "" := hnf b (by simp [queueIds, hq])
      have hg : ({ c with workers := c.workers ++ [WorkerState.looping]
          } : BulkState).workers[c.workers.length]? = some WorkerState.looping := by
        simp
      have hdrive : syncDriveFuel pendingOp (c.queue.length + 1)
          { c with workers := c.workers ++ [WorkerState.looping] } c.workers.length
          = updateProgress
            { c with queue := rest
                     inProgress := setAdd c.inProgress b
                     workers := (c.workers ++ [WorkerState.looping]).set
                       c.workers.length (WorkerState.awaiting j b)
                     opCalls := c.opCalls + 1 } := by
        have h1 : syncDriveFuel pendingOp (c.queue.length + 1)
            { c with workers := c.workers ++ [WorkerState.looping] } c.workers.length
            = runStep { c with workers := c.workers ++ [WorkerState.looping] }
              c.workers.length := by
          simp [syncDriveFuel, hg, hq, hb, pendingOp]
        rw [h1, runStep_claim_eq hg hq hb]
      have hstep : spawnLoopFuel pendingOp K (fuel + 1) i c
          = spawnLoopFuel pendingOp K fuel (i + 1)
            (updateProgress
              { c with queue := rest
                       inProgress := setAdd c.inProgress b
                       workers := (c.workers ++ [WorkerState.looping]).set
                         c.workers.length (WorkerState.awaiting j b)
                       opCalls := c.opCalls + 1 }) := by
        rw [show spawnLoopFuel pendingOp K (fuel + 1) i c
            = if (i : Int) < min K (c.queue.length : Int) then
                spawnLoopFuel pendingOp K fuel (i + 1)
                  (syncDriveFuel pendingOp (c.queue.length + 1)
                    { c with workers := c.workers ++ [WorkerState.looping] }
                    c.workers.length)
              else c from rfl]
        rw [if_pos hcond, hdrive]
      rw [hstep]
      rw [ih (i + 1) _ (by simp [updateProgress, hq] at hf ⊢; omega)
        (by
          intro x hx
          refine hnf x ?_
          simp only [updateProgress, queueIds, hq, List.map_cons] at hx ⊢
          exact List.mem_cons_of_mem _ hx)]
      have hrest : rest.length + 1 = c.queue.length := by rw [hq]; rfl
      simp only [updateProgress, List.length_set, List.length_append,
        List.length_singleton]
      omega
    · rw [show spawnLoopFuel pendingOp K (fuel + 1) i c
          = if (i : Int) < min K (c.queue.length : Int) then
              spawnLoopFuel pendingOp K fuel (i + 1)
                (syncDriveFuel pendingOp (c.queue.length + 1)
                  { c with workers := c.workers ++ [WorkerState.looping] }
                  c.workers.length)
            else c from rfl]
      rw [if_neg hcond]
      have h : ¬ ((i : Int) < K ∧ i < c.queue.length) := by
        intro ⟨h1, h2⟩
        exact hcond (lt_min h1 (by exact_mod_cast h2))
      omega

theorem step_queue_nil {c : BulkState} (h : c.queue = []) (d : Directive) :
    (step c d).queue = [] ∧ (step c d).opCalls = c.opCalls := by
  cases d with
  | run w =>
    show (runStep c w).queue = [] ∧ (runStep c w).opCalls = c.opCalls
    cases hg : c.workers[w]? with
    | none => simp [runStep, hg, h]
    | some ws => cases ws <;> simp [runStep, hg, h]
  | settle w e =>
    show (settleStep c w e).queue = [] ∧ (settleStep c w e).opCalls = c.opCalls
    cases hg : c.workers[w]? with
    | none => simp [settleStep, hg, h]
    | some ws =>
      cases ws with
      | looping => simp [settleStep, hg, h]
      | awaiting i b =>
        cases e <;> simp [settleStep, hg, h, updateProgress]
      | done => simp [settleStep, hg, h]

theorem foldl_opCalls_of_queue_nil (ds : List Directive) : ∀ {c : BulkState},
    c.queue = [] → (ds.foldl step c).opCalls = c.opCalls := by
  induction ds with
  | nil => intro c _; rfl
  | cons d ds ih =>
    intro c h
    rw [List.foldl_cons]
    rw [ih (step_queue_nil h d).1, (step_queue_nil h d).2]

/-! ### The claims -/

/-- C1 (counterexample): the claim as stated is false on the code.  With
input `[""]` and concurrency 1 the single worker pops the empty string and
the falsy check `if (!bookmarkId) break` exits the loop, so the call
finishes with both result lists empty and the id is lost.  With input
`["a"]` and concurrency 0 the `for` loop spawns no workers and the call
resolves immediately, losing `"a"`.  In both cases the multiset union of
the returned succeeded and failed ids differs from the input list. -/
theorem C1_counterexample :
    (finished (bulkRun [""] (some 1) [Directive.run 0]) = true
      ∧ ¬ List.Perm ((bulkRun [""] (some 1) [Directive.run 0]).succeeded
          ++ failedIds (bulkRun [""] (some 1) [Directive.run 0])) [""])
    ∧ (finished (bulkRun ["a"] (some 0) []) = true
      ∧ ¬ List.Perm ((bulkRun ["a"] (some 0) []).succeeded
          ++ failedIds (bulkRun ["a"] (some 0) [])) ["a"]) := by
  decide

/-- C1 (amended): for every input list of non-empty ids and every
concurrency option with positive effective value (the documented domain),
once `executeBulkOperation` has finished, every input id was processed
exactly once — the operation was invoked once per input entry — and the
partition is exact: the multiset union of the returned succeeded ids and
the ids in the failed entries equals the input id list, no id lost, none
duplicated. -/
theorem C1_partition_exact (ids : List String) (conc? : Option Int)
    (ds : List Directive) (hids : ∀ x ∈ ids, x ≠ "")
    (hc : 1 ≤ resolveConcurrency conc?)
    (hfin : finished (bulkRun ids conc? ds) = true) :
    List.Perm ((bulkRun ids conc? ds).succeeded ++ failedIds (bulkRun ids conc? ds)) ids
      ∧ (bulkRun ids conc? ds).opCalls = ids.length := by
  have h := terminal_partition (inv_bulkRun ids conc? ds) hids hc hfin
  exact ⟨h.1, h.2.1⟩

theorem C1_partition_exact_witness :
    List.Perm ((bulkRun ["a", "b", "a"] (some 2)
        [Directive.run 0, Directive.run 1, Directive.settle 0 none,
         Directive.settle 1 (some (JsError.errorObj "boom")), Directive.run 0,
         Directive.settle 0 none, Directive.run 0, Directive.run 1]).succeeded
      ++ failedIds (bulkRun ["a", "b", "a"] (some 2)
        [Directive.run 0, Directive.run 1, Directive.settle 0 none,
         Directive.settle 1 (some (JsError.errorObj "boom")), Directive.run 0,
         Directive.settle 0 none, Directive.run 0, Directive.run 1])) ["a", "b", "a"]
    ∧ (bulkRun ["a", "b", "a"] (some 2)
        [Directive.run 0, Directive.run 1, Directive.settle 0 none,
         Directive.settle 1 (some (JsError.errorObj "boom")), Directive.run 0,
         Directive.settle 0 none, Directive.run 0, Directive.run 1]).opCalls
      = (["a", "b", "a"] : List String).length :=
  C1_partition_exact ["a", "b", "a"] (some 2)
    [Directive.run 0, Directive.run 1, Directive.settle 0 none,
     Directive.settle 1 (some (JsError.errorObj "boom")), Directive.run 0,
     Directive.settle 0 none, Directive.run 0, Directive.run 1]
    (by decide) (by decide) (by decide)

/-- C2 (counterexample): the claim is false on the code: for the non-empty
input `["a"]` with concurrency 0 the bound `Math.min(concurrency,
queue.length)` is 0, the `for` loop spawns no workers at all (not one), the
queue is never drained, and the call resolves immediately with both result
lists empty, so `"a"` never reaches a terminal outcome. -/
theorem C2_counterexample :
    (init ["a"] (some 0)).workers = []
    ∧ finished (bulkRun ["a"] (some 0) []) = true
    ∧ (bulkRun ["a"] (some 0) []).succeeded = []
    ∧ (bulkRun ["a"] (some 0) []).failed = []
    ∧ (bulkRun ["a"] (some 0) []).opCalls = 0 := by
  decide

/-- C2 (amended): for every input list and every concurrency value `k ≤ 0`,
`executeBulkOperation` spawns zero workers (not one): every schedule leaves
the state unchanged from the initial one, so the call resolves immediately
with empty succeeded and failed lists, no id is processed and no progress
is emitted. -/
theorem C2_nonpositive_concurrency (ids : List String) (k : Int)
    (ds : List Directive) (hk : k ≤ 0) :
    (init ids (some k)).workers = []
    ∧ bulkRun ids (some k) ds = init ids (some k)
    ∧ (bulkRun ids (some k) ds).succeeded = []
    ∧ (bulkRun ids (some k) ds).failed = []
    ∧ (bulkRun ids (some k) ds).events = []
    ∧ (bulkRun ids (some k) ds).opCalls = 0 := by
  have hw : (init ids (some k)).workers = [] := by
    show List.replicate (numWorkers ids (some k)) WorkerState.looping = []
    rw [numWorkers_nonpos hk]
    rfl
  have hrun : bulkRun ids (some k) ds = init ids (some k) := foldl_noop hw ds
  exact ⟨hw, hrun, by rw [hrun]; rfl, by rw [hrun]; rfl, by rw [hrun]; rfl,
    by rw [hrun]; rfl⟩

theorem C2_nonpositive_concurrency_witness :
    (init ["a", "b"] (some (-2))).workers = []
    ∧ bulkRun ["a", "b"] (some (-2)) [Directive.run 0] = init ["a", "b"] (some (-2))
    ∧ (bulkRun ["a", "b"] (some (-2)) [Directive.run 0]).succeeded = []
    ∧ (bulkRun ["a", "b"] (some (-2)) [Directive.run 0]).failed = []
    ∧ (bulkRun ["a", "b"] (some (-2)) [Directive.run 0]).events = []
    ∧ (bulkRun ["a", "b"] (some (-2)) [Directive.run 0]).opCalls = 0 :=
  C2_nonpositive_concurrency ["a", "b"] (-2) [Directive.run 0] (by decide)

/-- C3 (counterexample): the "non-empty error message" part of the claim is
false on the code: when the operation rejects with an `Error` whose
`message` is the empty string, the catch clause records
`error instanceof Error ? error.message : String(error)`, i.e. the empty
string — there is no fallback for an empty message. -/
theorem C3_counterexample :
    finished (bulkRun ["a"] (some 1)
      [Directive.run 0, Directive.settle 0 (some (JsError.errorObj "")),
       Directive.run 0]) = true
    ∧ (bulkRun ["a"] (some 1)
        [Directive.run 0, Directive.settle 0 (some (JsError.errorObj "")),
         Directive.run 0]).failed = [("a", "")] := by
  decide

/-- C3 (amended): for a deterministic operation over non-empty ids and
positive effective concurrency, in every finished run: every id whose
operation rejects or throws (synchronous throws land in the same catch) is
recorded in the failed list exactly once per input occurrence, with the
Error's message (falling back to the stringified error) — which may itself
be empty — and never in the succeeded list; every id whose operation
fulfils is recorded exactly once per occurrence in the succeeded list and
never in the failed list.  No exception escapes to the caller (the
transition function is total) and the remaining ids are still processed. -/
theorem C3_failure_capture (op : String → Option JsError) (ids : List String)
    (conc? : Option Int) (ds : List Directive)
    (hids : ∀ x ∈ ids, x ≠ "") (hc : 1 ≤ resolveConcurrency conc?)
    (hfin : finished (bulkRunOp op ids conc? ds) = true) :
    (∀ x e, op x = some e →
        (bulkRunOp op ids conc? ds).failed.count (x, captureMsg e) = ids.count x
        ∧ x ∉ (bulkRunOp op ids conc? ds).succeeded)
    ∧ (∀ x, op x = none →
        (bulkRunOp op ids conc? ds).succeeded.count x = ids.count x
        ∧ x ∉ failedIds (bulkRunOp op ids conc? ds)) := by
  have inv := inv_bulkRunOp op ids conc? ds
  have iop := invOp_bulkRunOp op ids conc? ds
  have hperm := (terminal_partition inv hids hc hfin).1
  have hcount : ∀ x, (bulkRunOp op ids conc? ds).succeeded.count x
      + (failedIds (bulkRunOp op ids conc? ds)).count x = ids.count x := by
    intro x
    have h := List.perm_iff_count.mp hperm x
    simpa [List.count_append] using h
  constructor
  · intro x e hop
    have hnotsucc : x ∉ (bulkRunOp op ids conc? ds).succeeded := by
      intro hx
      rw [iop.succ_ok x hx] at hop
      exact Option.noConfusion hop
    have h0 : (bulkRunOp op ids conc? ds).succeeded.count x = 0 :=
      List.count_eq_zero_of_not_mem hnotsucc
    have hpair : (bulkRunOp op ids conc? ds).failed.count (x, captureMsg e)
        = (failedIds (bulkRunOp op ids conc? ds)).count x := by
      apply count_pair_eq_count_fst
      intro p hp hfst
      obtain ⟨e', he', hm⟩ := iop.failed_err p hp
      rw [hfst, hop] at he'
      rw [hm, Option.some.inj he']
    have hc2 := hcount x
    exact ⟨by omega, hnotsucc⟩
  · intro x hop
    have hnotf : x ∉ failedIds (bulkRunOp op ids conc? ds) := by
      intro hx
      obtain ⟨p, hp, hfst⟩ := List.mem_map.mp hx
      obtain ⟨e', he', _⟩ := iop.failed_err p hp
      rw [hfst, hop] at he'
      exact Option.noConfusion he'
    have h0 : (failedIds (bulkRunOp op ids conc? ds)).count x = 0 :=
      List.count_eq_zero_of_not_mem hnotf
    have hc2 := hcount x
    exact ⟨by omega, hnotf⟩

theorem C3_failure_capture_witness :
    (bulkRunOp (fun x => if x = "c" then some (JsError.errorObj "404 not found") else none)
        ["a", "b", "c", "d", "e"] (some 2)
        [Directive.run 0, Directive.run 1, Directive.settle 0 none, Directive.run 0,
         Directive.settle 1 none, Directive.run 1, Directive.settle 0 none,
         Directive.run 0, Directive.settle 1 none, Directive.settle 0 none,
         Directive.run 0, Directive.run 1]).failed.count ("c", "404 not found")
      = (["a", "b", "c", "d", "e"] : List String).count "c"
    ∧ "c" ∉ (bulkRunOp
        (fun x => if x = "c" then some (JsError.errorObj "404 not found") else none)
        ["a", "b", "c", "d", "e"] (some 2)
        [Directive.run 0, Directive.run 1, Directive.settle 0 none, Directive.run 0,
         Directive.settle 1 none, Directive.run 1, Directive.settle 0 none,
         Directive.run 0, Directive.settle 1 none, Directive.settle 0 none,
         Directive.run 0, Directive.run 1]).succeeded :=
  (C3_failure_capture
    (fun x => if x = "c" then some (JsError.errorObj "404 not found") else none)
    ["a", "b", "c", "d", "e"] (some 2)
    [Directive.run 0, Directive.run 1, Directive.settle 0 none, Directive.run 0,
     Directive.settle 1 none, Directive.run 1, Directive.settle 0 none,
     Directive.run 0, Directive.settle 1 none, Directive.settle 0 none,
     Directive.run 0, Directive.run 1]
    (by decide) (by decide) (by decide)).1 "c" (JsError.errorObj "404 not found")
    (by decide)

/-- C4: at every invocation of the `onProgress` callback within one call,
the emitted snapshot satisfies `completed + failed + inProgress ≤ total`
(and its `total` is the input length), and across the whole emission
sequence the `completed` and `failed` counters are non-decreasing — in
particular from each callback to the next. -/
theorem C4_progress_invariant (ids : List String) (conc? : Option Int)
    (ds : List Directive) :
    (∀ e ∈ (bulkRun ids conc? ds).events,
        e.completed + e.failed + e.inProgress ≤ e.total ∧ e.total = ids.length)
    ∧ (bulkRun ids conc? ds).events.Pairwise ProgLE := by
  have inv := inv_bulkRun ids conc? ds
  refine ⟨fun e he => ⟨(inv.ev_bound e he).1, ?_⟩, inv.ev_pairwise⟩
  rw [(inv.ev_bound e he).2, inv.total_eq]

theorem C4_progress_invariant_witness :
    BulkOperationProgress.mk 1 0 0 1 [] ∈
      (bulkRun ["a"] (some 1) [Directive.run 0]).events
    ∧ ((BulkOperationProgress.mk 1 0 0 1 []).completed
        + (BulkOperationProgress.mk 1 0 0 1 []).failed
        + (BulkOperationProgress.mk 1 0 0 1 []).inProgress
        ≤ (BulkOperationProgress.mk 1 0 0 1 []).total
      ∧ (BulkOperationProgress.mk 1 0 0 1 []).total
        = (["a"] : List String).length) :=
  ⟨by decide,
    (C4_progress_invariant ["a"] (some 1) [Directive.run 0]).1
      (BulkOperationProgress.mk 1 0 0 1 []) (by decide)⟩

/-- C5 (counterexample): the claim as stated is false on the code: for the
non-empty input `["x", ""]` with concurrency 1, the worker completes `"x"`,
then pops the blank id and breaks, so the last snapshot emitted before the
call resolves has `completed + failed = 1` while `total = 2`. -/
theorem C5_counterexample :
    finished (bulkRun ["x", ""] (some 1)
      [Directive.run 0, Directive.settle 0 none, Directive.run 0]) = true
    ∧ (bulkRun ["x", ""] (some 1)
        [Directive.run 0, Directive.settle 0 none, Directive.run 0]).events.getLast?
      = some (BulkOperationProgress.mk 2 1 0 0 [])
    ∧ (1 : Nat) + 0 ≠ 2 := by
  decide

/-- C5 (amended): for every non-empty input list of non-empty ids and
positive effective concurrency, the last snapshot emitted before
`executeBulkOperation` resolves satisfies `completed + failed = total`. -/
theorem C5_final_snapshot (ids : List String) (conc? : Option Int)
    (ds : List Directive) (hne : ids ≠ []) (hids : ∀ x ∈ ids, x ≠ "")
    (hc : 1 ≤ resolveConcurrency conc?)
    (hfin : finished (bulkRun ids conc? ds) = true) :
    ∃ e, (bulkRun ids conc? ds).events.getLast? = some e
      ∧ e.completed + e.failed = e.total ∧ e.total = ids.length :=
  terminal_last_event (inv_bulkRun ids conc? ds) hids hc hfin hne

theorem C5_final_snapshot_witness :
    ∃ e, (bulkRun ["a"] (some 3)
        [Directive.run 0, Directive.settle 0 none, Directive.run 0]).events.getLast?
      = some e ∧ e.completed + e.failed = e.total
      ∧ e.total = (["a"] : List String).length :=
  C5_final_snapshot ["a"] (some 3)
    [Directive.run 0, Directive.settle 0 none, Directive.run 0]
    (by decide) (by decide) (by decide) (by decide)

/-- C6 (counterexample): the claim is false on the code: the spawn loop
bound `Math.min(concurrency, queue.length)` is re-evaluated before every
iteration while each pushed async IIFE has already synchronously claimed one
id from the shared queue, so for `ids = ["a", "b"]` with concurrency 2 (or
the omitted default 3) the second check sees `1 < Math.min(concurrency, 1)`
fail and exactly one worker is pushed — not `min(2, 2) = 2`. -/
theorem C6_counterexample :
    (executeBulkSpawn pendingOp ["a", "b"] (some 2)).workers.length = 1
    ∧ min (2 : Int).toNat (["a", "b"] : List String).length = 2
    ∧ (executeBulkSpawn pendingOp ["a", "b"] none).workers.length = 1
    ∧ min (3 : Int).toNat (["a", "b"] : List String).length = 2 := by
  decide

/-- C6 (amended): for every input list of N non-empty ids and every
concurrency option, when the operation returns a still-pending promise for
every id (settling only through the event loop), `executeBulkOperation`
spawns exactly `min(max(concurrency, 0), ceil(N / 2))` workers — each
spawned worker synchronously claims one id before the loop bound
`Math.min(concurrency, queue.length)` is re-evaluated — with the omitted
concurrency defaulting to 3; in particular for the single-element list
`["x"]` with concurrency 5 exactly one worker is spawned and the operation
is invoked exactly once, whatever the rest of the schedule does. -/
theorem C6_spawn_count (ids : List String) (conc? : Option Int)
    (ds : List Directive) (hids : ∀ x ∈ ids, x ≠ "") :
    (executeBulkSpawn pendingOp ids conc?).workers.length
      = min (resolveConcurrency conc?).toNat ((ids.length + 1) / 2)
    ∧ (executeBulkSpawn pendingOp ["x"] (some 5)).workers.length = 1
    ∧ (bulkRunDyn pendingOp ["x"] (some 5) ds).opCalls = 1 := by
  refine ⟨?_, by decide, ?_⟩
  · have h := spawnLoop_workers_count (resolveConcurrency conc?) (ids.length + 1) 0
      (spawnInit ids) (by simp [spawnInit]) (by
        intro x hx
        refine hids x ?_
        simpa [spawnInit, queueIds, List.enum_map_snd] using hx)
    simpa [executeBulkSpawn, spawnInit] using h
  · have h0 : (executeBulkSpawn pendingOp ["x"] (some 5)).queue = [] := by decide
    have h1 : (executeBulkSpawn pendingOp ["x"] (some 5)).opCalls = 1 := by decide
    show (ds.foldl step (executeBulkSpawn pendingOp ["x"] (some 5))).opCalls = 1
    rw [foldl_opCalls_of_queue_nil ds h0, h1]

theorem C6_spawn_count_witness :
    (executeBulkSpawn pendingOp ["a", "b", "c"] (some 2)).workers.length
      = min (resolveConcurrency (some 2)).toNat
          (((["a", "b", "c"] : List String).length + 1) / 2)
    ∧ (bulkRunDyn pendingOp ["x"] (some 5)
        [Directive.settle 0 none, Directive.run 0]).opCalls = 1 :=
  ⟨(C6_spawn_count ["a", "b", "c"] (some 2) [] (by decide)).1,
    (C6_spawn_count ["x"] (some 5) [Directive.settle 0 none, Directive.run 0]
      (by decide)).2.2⟩

/-- C7: for every input list of non-empty ids and positive effective
concurrency (the documented domain of the `concurrency` option), with an
`onProgress` callback supplied, the callback is invoked exactly `2 * N`
times over the call: once when each id is claimed and once when it reaches
its terminal outcome. -/
theorem C7_callback_count (ids : List String) (conc? : Option Int)
    (ds : List Directive) (hids : ∀ x ∈ ids, x ≠ "")
    (hc : 1 ≤ resolveConcurrency conc?)
    (hfin : finished (bulkRun ids conc? ds) = true) :
    (bulkRun ids conc? ds).events.length = 2 * ids.length :=
  (terminal_partition (inv_bulkRun ids conc? ds) hids hc hfin).2.2

theorem C7_callback_count_witness :
    (bulkRun ["a", "b"] (some 1)
      [Directive.run 0, Directive.settle 0 none, Directive.run 0,
       Directive.settle 0 (some (JsError.nonError "TypeError: x")),
       Directive.run 0]).events.length = 2 * (["a", "b"] : List String).length :=
  C7_callback_count ["a", "b"] (some 1)
    [Directive.run 0, Directive.settle 0 none, Directive.run 0,
     Directive.settle 0 (some (JsError.nonError "TypeError: x")), Directive.run 0]
    (by decide) (by decide) (by decide)

/-- C8: for the empty input list, any concurrency and any schedule, the call
is already finished and resolves with empty succeeded and failed lists, the
operation is never invoked and `onProgress` is never called. -/
theorem C8_empty_input (conc? : Option Int) (ds : List Directive) :
    bulkRun [] conc? ds = init [] conc?
    ∧ finished (bulkRun [] conc? ds) = true
    ∧ (bulkRun [] conc? ds).succeeded = []
    ∧ (bulkRun [] conc? ds).failed = []
    ∧ (bulkRun [] conc? ds).events = []
    ∧ (bulkRun [] conc? ds).opCalls = 0 := by
  have hw : (init [] conc?).workers = [] := by
    show List.replicate (numWorkers [] conc?) WorkerState.looping = []
    rw [numWorkers_nil]
    rfl
  have hrun : bulkRun [] conc? ds = init [] conc? := foldl_noop hw ds
  refine ⟨hrun, ?_, by rw [hrun]; rfl, by rw [hrun]; rfl, by rw [hrun]; rfl,
    by rw [hrun]; rfl⟩
  rw [hrun]
  show (init [] conc?).workers.all _ = true
  rw [hw]
  rfl

/-- C9: at every reachable state of a call, the original queue positions
still in the queue together with those claimed by awaiting workers are
pairwise distinct — the synchronous `queue.shift()` hands each entry to
exactly one worker, so no two workers ever hold the same claimed entry —
and the number of operations in flight never exceeds the worker-pool size,
which for positive concurrency is `min(concurrency, len(ids))`. -/
theorem C9_atomic_handoff (ids : List String) (conc? : Option Int)
    (ds : List Directive) :
    ((bulkRun ids conc? ds).queue.map Prod.fst
        ++ awaitingIdxs (bulkRun ids conc? ds).workers).Nodup
    ∧ (awaitingIds (bulkRun ids conc? ds).workers).length
        ≤ (bulkRun ids conc? ds).workers.length
    ∧ (1 ≤ resolveConcurrency conc? →
        (awaitingIds (bulkRun ids conc? ds).workers).length
          ≤ min (resolveConcurrency conc?).toNat ids.length) := by
  have inv := inv_bulkRun ids conc? ds
  refine ⟨inv.idx_nodup, List.length_filterMap_le _ _, ?_⟩
  intro hc
  have hle : (awaitingIds (bulkRun ids conc? ds).workers).length
      ≤ (bulkRun ids conc? ds).workers.length := List.length_filterMap_le _ _
  rw [inv.wlen] at hle
  unfold numWorkers at hle
  omega

theorem C9_atomic_handoff_witness :
    ((bulkRun ["a", "b"] (some 1) [Directive.run 0]).queue.map Prod.fst
        ++ awaitingIdxs (bulkRun ["a", "b"] (some 1) [Directive.run 0]).workers).Nodup
    ∧ (awaitingIds (bulkRun ["a", "b"] (some 1) [Directive.run 0]).workers).length
        ≤ min (resolveConcurrency (some 1)).toNat (["a", "b"] : List String).length :=
  ⟨(C9_atomic_handoff ["a", "b"] (some 1) [Directive.run 0]).1,
    (C9_atomic_handoff ["a", "b"] (some 1) [Directive.run 0]).2.2 (by decide)⟩

/-- C10: if an input id is the empty string, the worker that claims it hits
`if (!bookmarkId) break` and exits its loop at once, recording no outcome,
emitting no snapshot and never invoking the operation for it; in
particular for `ids = ["", "x"]` with concurrency 1, every schedule leaves
the call with `succeeded = []`, `failed = []`, the operation never invoked
and `"x"` never claimed. -/
theorem C10_blank_id_break (c : BulkState) (w i : Nat)
    (rest : List (Nat × String))
    (hg : c.workers.get? w = some WorkerState.looping)
    (hq : c.queue = (i, "") :: rest) :
    step c (Directive.run w)
      = { c with queue := rest
                 workers := c.workers.set w WorkerState.done
                 dropped := c.dropped ++ [""] }
    ∧ ∀ ds, (bulkRun ["", "x"] (some 1) ds).succeeded = []
        ∧ (bulkRun ["", "x"] (some 1) ds).failed = []
        ∧ (bulkRun ["", "x"] (some 1) ds).opCalls = 0
        ∧ (bulkRun ["", "x"] (some 1) ds).events = [] := by
  constructor
  · have hg2 : c.workers[w]? = some WorkerState.looping := by
      rw [← List.get?_eq_getElem?]
      exact hg
    show runStep c w = _
    simp [runStep, hg2, hq]
  · intro ds
    rcases blankFirst_reach ds with h | h <;> rw [h] <;> exact ⟨rfl, rfl, rfl, rfl⟩

theorem C10_blank_id_break_witness :
    (step blankFirstStart (Directive.run 0)
      = { blankFirstStart with
            queue := [(1, "x")]
            workers := blankFirstStart.workers.set 0 WorkerState.done
            dropped := blankFirstStart.dropped ++ [""] })
    ∧ ((bulkRun ["", "x"] (some 1) [Directive.run 0]).succeeded = []
        ∧ (bulkRun ["", "x"] (some 1) [Directive.run 0]).failed = []
        ∧ (bulkRun ["", "x"] (some 1) [Directive.run 0]).opCalls = 0
        ∧ (bulkRun ["", "x"] (some 1) [Directive.run 0]).events = []) :=
  ⟨(C10_blank_id_break blankFirstStart 0 0 [(1, "x")] (by decide) (by decide)).1,
    (C10_blank_id_break blankFirstStart 0 0 [(1, "x")] (by decide) (by decide)).2
      [Directive.run 0]⟩

end Karakeep
